import Mathlib

/-!
Verification of the actor co-appearance search program (`search.py`).

The program operates on a list of co-appearance records; each record is a
triple `(actor_id_1, actor_id_2, film_id)`.  We embed every function that the
claims mention as an executable Lean definition, modelling Python sets by
`Finset Nat` (or by duplicate-free `List Nat` where iteration order matters),
Python dicts by functions into `Option`, and Python runtime faults
(`KeyError`, `TypeError`, `ValueError`) together with the fuel needed to make
`while` loops structural by an explicit result type `PyResult`.
-/

/-- A co-appearance record `(actor_id_1, actor_id_2, film_id)`. -/
abbrev CoRecord : Type := Nat × Nat × Nat

/-- Python membership `x in d` for a 3-tuple `d` tests `x` against every
component of the tuple, the film id included. -/
def memTriple (x : Nat) (r : CoRecord) : Bool :=
  x == r.1 || x == r.2.1 || x == r.2.2

/-- Embedding of `acted_together(data, actor_id_1, actor_id_2)`: scan the
records and return `True` at the first record `d` with
`actor_id_1 in d and actor_id_2 in d`, else `False`. -/
def acted_together (data : List CoRecord) (a1 a2 : Nat) : Bool :=
  data.any (fun r => memTriple a1 r && memTriple a2 r)

/-- The key set of the dictionary built by `mapped_actors(data)`: every id
occurring in the first or second slot of some record. -/
def actorKeys (data : List CoRecord) : Finset Nat :=
  (data.map (fun r => r.1) ++ data.map (fun r => r.2.1)).toFinset

/-- The co-star list of `a` in `mapped_actors(data)`: for each record the
partner of `a` (both directions are inserted by the Python loop), without
duplicates.  The dictionary value `d[a]` is a Python set; we realise it as a
duplicate-free list so that set iteration in the search loops is
deterministic, and as the `Finset` `mapped_actors` below where only the set
contents matter. -/
def nbrsList (data : List CoRecord) (a : Nat) : List Nat :=
  (data.filterMap (fun r =>
    if r.1 = a then some r.2.1
    else if r.2.1 = a then some r.1
    else none)).dedup

/-- Embedding of the adjacency dictionary `mapped_actors(data)` as the map
from an actor to its co-star set; its key set is `actorKeys data`. -/
def mapped_actors (data : List CoRecord) (a : Nat) : Finset Nat :=
  (nbrsList data a).toFinset

/-- The spec-side predicate "the record lists `a` and `b` as its two actors". -/
def listsActorPair (r : CoRecord) (a b : Nat) : Prop :=
  (r.1 = a ∧ r.2.1 = b) ∨ (r.1 = b ∧ r.2.1 = a)

instance (r : CoRecord) (a b : Nat) : Decidable (listsActorPair r a b) := by
  unfold listsActorPair; infer_instance

/-- Membership in a co-star set unfolds to the existence of a matching
record. -/
lemma mem_mapped_actors {data : List CoRecord} {a b : Nat} :
    b ∈ mapped_actors data a ↔ ∃ r ∈ data, listsActorPair r a b := by
  unfold mapped_actors nbrsList listsActorPair
  rw [List.mem_toFinset, List.mem_dedup, List.mem_filterMap]
  constructor
  · rintro ⟨r, hr, hout⟩
    refine ⟨r, hr, ?_⟩
    by_cases h1 : r.1 = a
    · rw [if_pos h1, Option.some_inj] at hout
      exact Or.inl ⟨h1, hout⟩
    · by_cases h2 : r.2.1 = a
      · rw [if_neg h1, if_pos h2, Option.some_inj] at hout
        exact Or.inr ⟨hout, h2⟩
      · rw [if_neg h1, if_neg h2] at hout
        exact absurd hout (by simp)
  · rintro ⟨r, hr, hpair | hpair⟩
    · exact ⟨r, hr, by rw [if_pos hpair.1, hpair.2]⟩
    · refine ⟨r, hr, ?_⟩
      by_cases h1 : r.1 = a
      · have hab : a = b := h1 ▸ hpair.1
        rw [if_pos h1, hpair.2, hab]
      · rw [if_neg h1, if_pos hpair.2, hpair.1]

/-- Every co-star is itself a key of the adjacency dictionary. -/
lemma mapped_actors_subset_keys {data : List CoRecord} {a b : Nat}
    (h : b ∈ mapped_actors data a) : b ∈ actorKeys data := by
  rcases mem_mapped_actors.1 h with ⟨r, hr, hp | hp⟩
  · unfold actorKeys
    rw [List.mem_toFinset, List.mem_append]
    exact Or.inr (List.mem_map.2 ⟨r, hr, hp.2⟩)
  · unfold actorKeys
    rw [List.mem_toFinset, List.mem_append]
    exact Or.inl (List.mem_map.2 ⟨r, hr, hp.1⟩)

/-- C2 (amended): `acted_together` returns `True` iff some record contains
both ids among its three components (the two actor slots or the film slot),
and `False` otherwise. -/
theorem acted_together_iff_shared_record (data : List CoRecord) (a1 a2 : Nat) :
    acted_together data a1 a2 = true ↔
      ∃ r ∈ data, (a1 = r.1 ∨ a1 = r.2.1 ∨ a1 = r.2.2) ∧
                  (a2 = r.1 ∨ a2 = r.2.1 ∨ a2 = r.2.2) := by
  unfold acted_together memTriple
  simp [List.any_eq_true, or_assoc]

/-- C2 counterexample: on `[(1,2,100)]` the call `acted_together(data, 1, 100)`
returns `True` although no record lists `1` and `100` as its two actors (the
membership test `actor_id in d` also matches the film id slot). -/
theorem acted_together_film_id_counterexample :
    acted_together [(1, 2, 100)] 1 100 = true ∧
      ¬ ∃ r ∈ [((1 : Nat), (2 : Nat), (100 : Nat))], listsActorPair r 1 100 := by
  constructor
  · decide
  · decide

/-- C9: the adjacency map built by `mapped_actors` is symmetric: for every
record `(A, B, F)` in the data, `B ∈ adjacency[A]` and `A ∈ adjacency[B]`,
and in general `B ∈ adjacency[A] ↔ A ∈ adjacency[B]`. -/
theorem adjacency_symm (data : List CoRecord) :
    (∀ r ∈ data, r.2.1 ∈ mapped_actors data r.1 ∧ r.1 ∈ mapped_actors data r.2.1) ∧
    (∀ a b : Nat, b ∈ mapped_actors data a ↔ a ∈ mapped_actors data b) := by
  constructor
  · intro r hr
    constructor
    · exact mem_mapped_actors.2 ⟨r, hr, Or.inl ⟨rfl, rfl⟩⟩
    · exact mem_mapped_actors.2 ⟨r, hr, Or.inr ⟨rfl, rfl⟩⟩
  · intro a b
    rw [mem_mapped_actors, mem_mapped_actors]
    constructor
    · rintro ⟨r, hr, hp | hp⟩
      · exact ⟨r, hr, Or.inr hp⟩
      · exact ⟨r, hr, Or.inl hp⟩
    · rintro ⟨r, hr, hp | hp⟩
      · exact ⟨r, hr, Or.inr hp⟩
      · exact ⟨r, hr, Or.inl hp⟩

/-- C9 witness at the record list `[(1,2,100)]`. -/
theorem adjacency_symm_witness :
    2 ∈ mapped_actors [(1, 2, 100)] 1 ∧ 1 ∈ mapped_actors [(1, 2, 100)] 2 :=
  (adjacency_symm [(1, 2, 100)]).1 (1, 2, 100) (by decide)

/-- Embedding of `actors_to_movie(data)`: the dictionary mapping both
orderings of each record's actor pair to the record's film id; a later record
for the same ordered pair overwrites the earlier film (last write wins). -/
def actors_to_movie (data : List CoRecord) : Nat × Nat → Option Nat :=
  data.foldl
    (fun d r => fun p =>
      if p = (r.1, r.2.1) ∨ p = (r.2.1, r.1) then some r.2.2 else d p)
    (fun _ => none)

/-- The ordered pairs inserted into `actors_to_movie`'s dictionary, in
insertion order (with repetitions; the dictionary keeps one entry per pair). -/
def moviePairs (data : List CoRecord) : List (Nat × Nat) :=
  data.foldr (fun r acc => (r.1, r.2.1) :: (r.2.1, r.1) :: acc) []

/-- Embedding of the collection loop of `actors_in_a_movie(data, film)`: both
components of every dictionary entry whose value is `film`, without
duplicates. -/
def castList (data : List CoRecord) (film : Nat) : List Nat :=
  (((moviePairs data).filter
      (fun p => decide (actors_to_movie data p = some film))).foldr
    (fun p acc => p.1 :: p.2 :: acc) []).dedup

/-- Embedding of `actors_in_a_movie(data, film)` as the returned set. -/
def actors_in_a_movie (data : List CoRecord) (film : Nat) : Finset Nat :=
  (castList data film).toFinset

lemma mem_moviePairs {data : List CoRecord} {p : Nat × Nat} :
    p ∈ moviePairs data ↔ ∃ r ∈ data, p = (r.1, r.2.1) ∨ p = (r.2.1, r.1) := by
  induction data with
  | nil => simp [moviePairs]
  | cons r rest ih =>
    unfold moviePairs at ih ⊢
    simp only [List.foldr_cons, List.mem_cons, ih, List.mem_cons]
    constructor
    · rintro (h | h | ⟨r', hr', h'⟩)
      · exact ⟨r, Or.inl rfl, Or.inl h⟩
      · exact ⟨r, Or.inl rfl, Or.inr h⟩
      · exact ⟨r', Or.inr hr', h'⟩
    · rintro ⟨r', hr' | hr', h'⟩
      · subst hr'
        rcases h' with h' | h'
        · exact Or.inl h'
        · exact Or.inr (Or.inl h')
      · exact Or.inr (Or.inr ⟨r', hr', h'⟩)

/-- The two orderings of a pair always carry the same film in
`actors_to_movie` (each record writes both orderings). -/
lemma actors_to_movie_symm (data : List CoRecord) (a b : Nat) :
    actors_to_movie data (a, b) = actors_to_movie data (b, a) := by
  unfold actors_to_movie
  suffices h : ∀ (d : Nat × Nat → Option Nat),
      d (a, b) = d (b, a) →
      (data.foldl (fun d r => fun p =>
        if p = (r.1, r.2.1) ∨ p = (r.2.1, r.1) then some r.2.2 else d p) d) (a, b)
      = (data.foldl (fun d r => fun p =>
        if p = (r.1, r.2.1) ∨ p = (r.2.1, r.1) then some r.2.2 else d p) d) (b, a) by
    exact h _ rfl
  induction data with
  | nil => intro d hd; simpa using hd
  | cons r rest ih =>
    intro d hd
    simp only [List.foldl_cons]
    apply ih
    by_cases h1 : (a, b) = (r.1, r.2.1) ∨ (a, b) = (r.2.1, r.1)
    · have h2 : (b, a) = (r.1, r.2.1) ∨ (b, a) = (r.2.1, r.1) := by
        rcases h1 with h | h
        · exact Or.inr (by rw [Prod.ext_iff] at h ⊢; exact ⟨h.2, h.1⟩)
        · exact Or.inl (by rw [Prod.ext_iff] at h ⊢; exact ⟨h.2, h.1⟩)
      rw [if_pos h1, if_pos h2]
    · have h2 : ¬((b, a) = (r.1, r.2.1) ∨ (b, a) = (r.2.1, r.1)) := by
        rintro (h | h)
        · exact h1 (Or.inr (by rw [Prod.ext_iff] at h ⊢; exact ⟨h.2, h.1⟩))
        · exact h1 (Or.inl (by rw [Prod.ext_iff] at h ⊢; exact ⟨h.2, h.1⟩))
      rw [if_neg h1, if_neg h2]
      exact hd

lemma atm_foldl_dom :
    ∀ (data : List CoRecord) (d : Nat × Nat → Option Nat) (p : Nat × Nat) (m : Nat),
      (data.foldl (fun d r => fun p =>
        if p = (r.1, r.2.1) ∨ p = (r.2.1, r.1) then some r.2.2 else d p) d) p = some m →
      (∃ r ∈ data, p = (r.1, r.2.1) ∨ p = (r.2.1, r.1)) ∨ d p = some m := by
  intro data
  induction data with
  | nil => intro d p m hd; exact Or.inr hd
  | cons r rest ih =>
    intro d p m hd
    simp only [List.foldl_cons] at hd
    rcases ih _ _ _ hd with hin | hbase
    · rcases hin with ⟨r', hr', h'⟩
      exact Or.inl ⟨r', List.mem_cons_of_mem _ hr', h'⟩
    · by_cases hc : p = (r.1, r.2.1) ∨ p = (r.2.1, r.1)
      · exact Or.inl ⟨r, List.mem_cons_self _ _, hc⟩
      · rw [if_neg hc] at hbase
        exact Or.inr hbase

/-- A pair holding a film in the final dictionary was inserted by some
record. -/
lemma actors_to_movie_dom {data : List CoRecord} {p : Nat × Nat} {m : Nat}
    (h : actors_to_movie data p = some m) : p ∈ moviePairs data := by
  unfold actors_to_movie at h
  rw [mem_moviePairs]
  rcases atm_foldl_dom data _ p m h with hin | hbad
  · exact hin
  · exact absurd hbad (by simp)

/-- Membership in a film's cast set unfolds to a surviving dictionary entry
labelled with that film. -/
lemma mem_actors_in_a_movie {data : List CoRecord} {film a : Nat} :
    a ∈ actors_in_a_movie data film ↔
      ∃ p, actors_to_movie data p = some film ∧ p ∈ moviePairs data ∧
        (a = p.1 ∨ a = p.2) := by
  unfold actors_in_a_movie castList
  rw [List.mem_toFinset, List.mem_dedup]
  have hfold : ∀ (l : List (Nat × Nat)),
      a ∈ l.foldr (fun p acc => p.1 :: p.2 :: acc) [] ↔
        ∃ p ∈ l, a = p.1 ∨ a = p.2 := by
    intro l
    induction l with
    | nil => simp
    | cons p rest ih =>
      simp only [List.foldr_cons, List.mem_cons, ih]
      constructor
      · rintro (h | h | ⟨p', hp', h'⟩)
        · exact ⟨p, Or.inl rfl, Or.inl h⟩
        · exact ⟨p, Or.inl rfl, Or.inr h⟩
        · exact ⟨p', Or.inr hp', h'⟩
      · rintro ⟨p', hp' | hp', h'⟩
        · subst hp'
          rcases h' with h' | h'
          · exact Or.inl h'
          · exact Or.inr (Or.inl h')
        · exact Or.inr (Or.inr ⟨p', hp', h'⟩)
  rw [hfold]
  constructor
  · rintro ⟨p, hp, ha⟩
    rw [List.mem_filter] at hp
    exact ⟨p, by simpa using hp.2, hp.1, ha⟩
  · rintro ⟨p, hfilm, hmem, ha⟩
    exact ⟨p, List.mem_filter.2 ⟨hmem, by simpa using hfilm⟩, ha⟩

/-- C10 (amended): if `(A, B)` co-starred in a record with film `F`, but the
surviving dictionary entry for the pair holds a different film `G` (their `F`
edge was overwritten), and no other surviving entry labelled `F` involves `A`
or `B`, then `actors_in_a_movie(data, F)` contains neither `A` nor `B`. -/
theorem cast_overwrite_excludes (data : List CoRecord) (A B F G : Nat)
    (h1a : ∃ r ∈ data, listsActorPair r A B ∧ r.2.2 = F)
    (h1b : ∃ r ∈ data, listsActorPair r A B ∧ r.2.2 = G)
    (hGF : G ≠ F)
    (h2 : actors_to_movie data (A, B) = some G)
    (h3 : ∀ p : Nat × Nat, actors_to_movie data p = some F →
      p ≠ (A, B) → p ≠ (B, A) → A ≠ p.1 ∧ A ≠ p.2 ∧ B ≠ p.1 ∧ B ≠ p.2) :
    A ∉ actors_in_a_movie data F ∧ B ∉ actors_in_a_movie data F := by
  have key : ∀ x : Nat, x = A ∨ x = B → x ∉ actors_in_a_movie data F := by
    intro x hx hmem
    rcases mem_actors_in_a_movie.1 hmem with ⟨p, hfilm, _, hxp⟩
    by_cases hAB : p = (A, B)
    · rw [hAB, h2] at hfilm
      exact hGF (Option.some_inj.1 hfilm)
    · by_cases hBA : p = (B, A)
      · rw [hBA, ← actors_to_movie_symm, h2] at hfilm
        exact hGF (Option.some_inj.1 hfilm)
      · rcases h3 p hfilm hAB hBA with ⟨hA1, hA2, hB1, hB2⟩
        rcases hx with hx | hx <;> rcases hxp with hxp | hxp <;>
          subst hx <;> subst hxp <;> first
          | exact hA1 rfl | exact hA2 rfl | exact hB1 rfl | exact hB2 rfl
  exact ⟨key A (Or.inl rfl), key B (Or.inr rfl)⟩

/-- C10 witness: in `[(1,2,100),(1,2,101)]` the `(1,2)` edge labelled `100`
is overwritten by `101`, so film `100`'s cast excludes both actors. -/
theorem cast_overwrite_excludes_witness :
    1 ∉ actors_in_a_movie [(1, 2, 100), (1, 2, 101)] 100 ∧
    2 ∉ actors_in_a_movie [(1, 2, 100), (1, 2, 101)] 100 :=
  cast_overwrite_excludes [(1, 2, 100), (1, 2, 101)] 1 2 100 101
    ⟨(1, 2, 100), by decide, by decide, rfl⟩
    ⟨(1, 2, 101), by decide, by decide, rfl⟩
    (by decide)
    (by decide)
    (by
      intro p hp hne1 hne2
      have hmem := actors_to_movie_dom hp
      have : p = (1, 2) ∨ p = (2, 1) := by
        have h := mem_moviePairs.1 hmem
        rcases h with ⟨r, hr, hcase⟩
        simp only [List.mem_cons, List.not_mem_nil, or_false] at hr
        rcases hr with hr | hr <;> subst hr <;> simpa using hcase
      rcases this with h | h
      · exact absurd h hne1
      · exact absurd h hne2)

/-- C10 counterexample (the claim as literally stated): in
`[(1,2,100),(1,2,101),(1,2,100)]` the pair `(1,2)` appears with film `100`
followed later in input order by a record with film `101 ≠ 100`, and no
surviving entry for a pair other than `(1,2)`/`(2,1)` carries film `100`;
yet `actors_in_a_movie(data, 100)` contains actor `1`, because a still later
record restored the `100` label for that pair. -/
theorem cast_overwrite_counterexample :
    ([(1, 2, 100), (1, 2, 101), (1, 2, 100)] : List CoRecord).get? 0
        = some (1, 2, 100) ∧
    ([(1, 2, 100), (1, 2, 101), (1, 2, 100)] : List CoRecord).get? 1
        = some (1, 2, 101) ∧
    (100 : Nat) ≠ 101 ∧
    (∀ p : Nat × Nat,
      actors_to_movie [(1, 2, 100), (1, 2, 101), (1, 2, 100)] p = some 100 →
      p ≠ (1, 2) → p ≠ (2, 1) →
      1 ≠ p.1 ∧ 1 ≠ p.2 ∧ 2 ≠ p.1 ∧ 2 ≠ p.2) ∧
    1 ∈ actors_in_a_movie [(1, 2, 100), (1, 2, 101), (1, 2, 100)] 100 := by
  refine ⟨by decide, by decide, by decide, ?_, by decide⟩
  intro p hp hne1 hne2
  have hmem := actors_to_movie_dom hp
  have : p = (1, 2) ∨ p = (2, 1) := by
    rcases mem_moviePairs.1 hmem with ⟨r, hr, hcase⟩
    simp only [List.mem_cons, List.not_mem_nil, or_false] at hr
    rcases hr with hr | hr | hr <;> subst hr <;> simpa using hcase
  rcases this with h | h
  · exact absurd h hne1
  · exact absurd h hne2

/-- The ideal breadth-first ball: all nodes reachable from `s` in at most `k`
steps along the neighbour function `nb`. -/
def ball (nb : Nat → Finset Nat) (s : Nat) : Nat → Finset Nat
  | 0 => {s}
  | k + 1 => ball nb s k ∪ (ball nb s k).biUnion nb

/-- The ideal breadth-first sphere: all nodes at distance exactly `k`
from `s`. -/
def sphere (nb : Nat → Finset Nat) (s : Nat) : Nat → Finset Nat
  | 0 => {s}
  | k + 1 => ball nb s (k + 1) \ ball nb s k

lemma ball_subset_succ (nb : Nat → Finset Nat) (s k : Nat) :
    ball nb s k ⊆ ball nb s (k + 1) := by
  intro v hv
  exact Finset.mem_union_left _ hv

lemma ball_mono (nb : Nat → Finset Nat) (s : Nat) {k l : Nat} (h : k ≤ l) :
    ball nb s k ⊆ ball nb s l := by
  induction l with
  | zero =>
    have : k = 0 := Nat.le_zero.1 h
    subst this; exact subset_rfl
  | succ l ih =>
    rcases Nat.lt_or_ge k (l + 1) with hlt | hge
    · exact (ih (Nat.lt_succ_iff.1 hlt)).trans (ball_subset_succ nb s l)
    · have : k = l + 1 := Nat.le_antisymm h hge
      subst this; exact subset_rfl

lemma s_mem_ball (nb : Nat → Finset Nat) (s k : Nat) : s ∈ ball nb s k :=
  ball_mono nb s (Nat.zero_le k) (by simp [ball])

lemma sphere_subset_ball (nb : Nat → Finset Nat) (s k : Nat) :
    sphere nb s k ⊆ ball nb s k := by
  cases k with
  | zero => exact subset_rfl
  | succ k => exact Finset.sdiff_subset

lemma ball_succ_eq_union_sphere (nb : Nat → Finset Nat) (s k : Nat) :
    ball nb s (k + 1) = ball nb s k ∪ sphere nb s (k + 1) := by
  unfold sphere
  rw [Finset.union_sdiff_self_eq_union]
  exact (Finset.union_eq_right.2 (ball_subset_succ nb s k)).symm

lemma mem_ball_iff_spheres (nb : Nat → Finset Nat) (s : Nat) :
    ∀ k v, v ∈ ball nb s k ↔ ∃ m ≤ k, v ∈ sphere nb s m := by
  intro k
  induction k with
  | zero =>
    intro v
    constructor
    · intro hv; exact ⟨0, Nat.le_refl 0, hv⟩
    · rintro ⟨m, hm, hv⟩
      have : m = 0 := Nat.le_zero.1 hm
      subst this; exact hv
  | succ k ih =>
    intro v
    rw [ball_succ_eq_union_sphere, Finset.mem_union]
    constructor
    · rintro (hv | hv)
      · rcases (ih v).1 hv with ⟨m, hm, hv'⟩
        exact ⟨m, Nat.le_succ_of_le hm, hv'⟩
      · exact ⟨k + 1, Nat.le_refl _, hv⟩
    · rintro ⟨m, hm, hv⟩
      rcases Nat.lt_or_ge m (k + 1) with hlt | hge
      · exact Or.inl ((ih v).2 ⟨m, Nat.lt_succ_iff.1 hlt, hv⟩)
      · have : m = k + 1 := Nat.le_antisymm hm hge
        subst this; exact Or.inr hv

/-- Spheres are pairwise disjoint: a node lies on at most one sphere. -/
lemma sphere_index_unique (nb : Nat → Finset Nat) (s : Nat) {m n v : Nat}
    (hm : v ∈ sphere nb s m) (hn : v ∈ sphere nb s n) : m = n := by
  rcases Nat.lt_trichotomy m n with h | h | h
  · exfalso
    rcases n with _ | n'
    · exact absurd h (Nat.not_lt_zero m)
    · have hnot : v ∉ ball nb s n' := (Finset.mem_sdiff.1 hn).2
      exact hnot (ball_mono nb s (Nat.lt_succ_iff.1 h) (sphere_subset_ball nb s m hm))
  · exact h
  · exfalso
    rcases m with _ | m'
    · exact absurd h (Nat.not_lt_zero n)
    · have hnot : v ∉ ball nb s m' := (Finset.mem_sdiff.1 hm).2
      exact hnot (ball_mono nb s (Nat.lt_succ_iff.1 h) (sphere_subset_ball nb s n hn))

/-- One BFS expansion step: the unseen neighbours of sphere `k` are exactly
sphere `k + 1`. -/
lemma next_sphere (nb : Nat → Finset Nat) (s k : Nat) :
    (sphere nb s k).biUnion nb \ ball nb s k = sphere nb s (k + 1) := by
  apply Finset.Subset.antisymm
  · intro v hv
    rcases Finset.mem_sdiff.1 hv with ⟨hin, hout⟩
    rcases Finset.mem_biUnion.1 hin with ⟨u, hu, hvu⟩
    have hub : u ∈ ball nb s k := sphere_subset_ball nb s k hu
    have : v ∈ ball nb s (k + 1) :=
      Finset.mem_union_right _ (Finset.mem_biUnion.2 ⟨u, hub, hvu⟩)
    exact Finset.mem_sdiff.2 ⟨this, hout⟩
  · intro v hv
    rcases Finset.mem_sdiff.1 hv with ⟨hin, hout⟩
    rcases Finset.mem_union.1 hin with hold | hnew
    · exact absurd hold hout
    · rcases Finset.mem_biUnion.1 hnew with ⟨u, hu, hvu⟩
      rcases (mem_ball_iff_spheres nb s k u).1 hu with ⟨m, hm, hum⟩
      rcases Nat.lt_or_ge m k with hlt | hge
      · exfalso
        apply hout
        have humb : u ∈ ball nb s m := sphere_subset_ball nb s m hum
        rcases k with _ | k'
        · exact absurd hlt (Nat.not_lt_zero m)
        · have hu' : u ∈ ball nb s k' := ball_mono nb s (Nat.lt_succ_iff.1 hlt) humb
          have hv' : v ∈ ball nb s k' ∪ (ball nb s k').biUnion nb :=
            Finset.mem_union_right _ (Finset.mem_biUnion.2 ⟨u, hu', hvu⟩)
          simpa [ball] using hv'
      · have : m = k := Nat.le_antisymm hm hge
        subst this
        exact Finset.mem_sdiff.2
          ⟨Finset.mem_biUnion.2 ⟨u, hum, hvu⟩, hout⟩

lemma sphere_empty_succ (nb : Nat → Finset Nat) (s k : Nat)
    (h : sphere nb s k = ∅) : sphere nb s (k + 1) = ∅ := by
  rw [← next_sphere, h]
  simp

lemma sphere_nonempty_of_succ (nb : Nat → Finset Nat) (s k : Nat)
    (h : (sphere nb s (k + 1)).Nonempty) : (sphere nb s k).Nonempty := by
  by_contra hne
  rw [Finset.not_nonempty_iff_eq_empty] at hne
  rw [sphere_empty_succ nb s k hne] at h
  exact absurd h (by simp)

/-- While spheres stay nonempty the balls grow strictly: sphere `k` nonempty
forces at least `k + 1` nodes within distance `k`. -/
lemma ball_card_of_sphere_nonempty (nb : Nat → Finset Nat) (s : Nat) :
    ∀ k, (sphere nb s k).Nonempty → k + 1 ≤ (ball nb s k).card := by
  intro k
  induction k with
  | zero => intro _; simp [ball]
  | succ k ih =>
    intro h
    have hk := ih (sphere_nonempty_of_succ nb s k h)
    rw [ball_succ_eq_union_sphere]
    have hdisj : Disjoint (ball nb s k) (sphere nb s (k + 1)) := by
      unfold sphere
      exact Finset.disjoint_sdiff
    rw [Finset.card_union_of_disjoint hdisj]
    have hpos : 1 ≤ (sphere nb s (k + 1)).card := Finset.card_pos.2 h
    omega

/-- Balls stay inside the key set when the start is a key and every
neighbour set is made of keys. -/
lemma ball_subset_keys {nb : Nat → Finset Nat} {K : Finset Nat} {s : Nat}
    (hnb : ∀ u v, v ∈ nb u → v ∈ K) (hs : s ∈ K) :
    ∀ k, ball nb s k ⊆ K := by
  intro k
  induction k with
  | zero => intro v hv; rw [ball, Finset.mem_singleton] at hv; subst hv; exact hs
  | succ k ih =>
    intro v hv
    rcases Finset.mem_union.1 hv with hv | hv
    · exact ih hv
    · rcases Finset.mem_biUnion.1 hv with ⟨u, _, hvu⟩
      exact hnb u v hvu

/-- Under the key-closure hypotheses a nonempty sphere bounds its index by
the number of keys. -/
lemma sphere_nonempty_bound {nb : Nat → Finset Nat} {K : Finset Nat} {s : Nat}
    (hnb : ∀ u v, v ∈ nb u → v ∈ K) (hs : s ∈ K) {k : Nat}
    (h : (sphere nb s k).Nonempty) : k + 1 ≤ K.card :=
  (ball_card_of_sphere_nonempty nb s k h).trans
    (Finset.card_le_card (ball_subset_keys hnb hs k))

/-- The reachable set stabilises: membership in any ball implies membership
in the ball of radius `K.card`. -/
lemma mem_ball_stab {nb : Nat → Finset Nat} {K : Finset Nat} {s : Nat}
    (hnb : ∀ u v, v ∈ nb u → v ∈ K) (hs : s ∈ K) {m v : Nat}
    (h : v ∈ ball nb s m) : v ∈ ball nb s K.card := by
  rcases (mem_ball_iff_spheres nb s m v).1 h with ⟨m', hm', hv⟩
  have hb : m' + 1 ≤ K.card := sphere_nonempty_bound hnb hs ⟨v, hv⟩
  exact ball_mono nb s (Nat.le_of_succ_le hb) (sphere_subset_ball nb s m' hv)

lemma sphere_empty_of_big {nb : Nat → Finset Nat} {K : Finset Nat} {s : Nat}
    (hnb : ∀ u v, v ∈ nb u → v ∈ K) (hs : s ∈ K) {k : Nat}
    (h : K.card ≤ k) : sphere nb s k = ∅ := by
  by_contra hne
  have := sphere_nonempty_bound hnb hs (Finset.nonempty_iff_ne_empty.2 hne)
  omega

lemma ball_succ (nb : Nat → Finset Nat) (s k : Nat) :
    ball nb s (k + 1) = ball nb s k ∪ (ball nb s k).biUnion nb := rfl

lemma ball_shift (nb : Nat → Finset Nat) {a y : Nat} (hy : y ∈ nb a) :
    ∀ k, ball nb y k ⊆ ball nb a (k + 1) := by
  intro k
  induction k with
  | zero =>
    intro v hv
    rw [ball, Finset.mem_singleton] at hv
    subst hv
    rw [ball_succ]
    exact Finset.mem_union_right _
      (Finset.mem_biUnion.2 ⟨a, by simp [ball], hy⟩)
  | succ k ih =>
    intro v hv
    rw [ball_succ] at hv
    rcases Finset.mem_union.1 hv with hv'' | hv''
    · exact ball_subset_succ nb a (k + 1) (ih hv'')
    · rcases Finset.mem_biUnion.1 hv'' with ⟨u, hu, hvu⟩
      rw [ball_succ]
      exact Finset.mem_union_right _ (Finset.mem_biUnion.2 ⟨u, ih hu, hvu⟩)

/-- The endpoint of an edge path of `n + 1` nodes starting at `a` lies within
distance `n` of `a`. -/
lemma path_last_mem_ball (nb : Nat → Finset Nat) :
    ∀ (q : List Nat) (a b : Nat),
      List.Chain' (fun u v => v ∈ nb u) q →
      q.head? = some a → q.getLast? = some b →
      b ∈ ball nb a (q.length - 1) := by
  intro q
  induction q with
  | nil => intro a b _ hh _; simp at hh
  | cons x rest ih =>
    intro a b hchain hhead hlast
    rw [List.head?_cons, Option.some_inj] at hhead
    subst hhead
    cases rest with
    | nil =>
      have hb : b = x := by simpa using hlast.symm
      subst hb
      simp [ball]
    | cons y t =>
      have hxy : y ∈ nb x := (List.chain'_cons.1 hchain).1
      have hchain' : List.Chain' (fun u v => v ∈ nb u) (y :: t) :=
        (List.chain'_cons.1 hchain).2
      have hlast' : (y :: t).getLast? = some b := by
        rw [← List.getLast?_cons_cons]
        exact hlast
      have hb : b ∈ ball nb y ((y :: t).length - 1) :=
        ih y b hchain' (by simp) hlast'
      have hb' : b ∈ ball nb x ((y :: t).length - 1 + 1) :=
        ball_shift nb hxy _ hb
      simpa using hb'

/-- Conversely, a node within distance `k` of `s` is reached by an edge path
of at most `k + 1` nodes. -/
lemma path_of_mem_ball (nb : Nat → Finset Nat) (s : Nat) :
    ∀ k v, v ∈ ball nb s k →
      ∃ q : List Nat, List.Chain' (fun u w => w ∈ nb u) q ∧ q.head? = some s ∧
        q.getLast? = some v ∧ q.length ≤ k + 1 := by
  intro k
  induction k with
  | zero =>
    intro v hv
    rw [ball, Finset.mem_singleton] at hv
    subst hv
    exact ⟨[v], by simp, by simp, by simp, by simp⟩
  | succ k ih =>
    intro v hv
    have hv' : v ∈ ball nb s k ∪ (ball nb s k).biUnion nb := by simpa [ball] using hv
    rcases Finset.mem_union.1 hv' with hv'' | hv''
    · rcases ih v hv'' with ⟨q, hch, hh, hl, hlen⟩
      exact ⟨q, hch, hh, hl, hlen.trans (Nat.le_succ _)⟩
    · rcases Finset.mem_biUnion.1 hv'' with ⟨u, hu, hvu⟩
      rcases ih u hu with ⟨q, hch, hh, hl, hlen⟩
      refine ⟨q ++ [v], ?_, ?_, ?_, ?_⟩
      · rw [List.chain'_append]
        refine ⟨hch, by simp, ?_⟩
        intro x hx y hy
        rw [hl, Option.mem_def, Option.some_inj] at hx
        rw [List.head?_cons, Option.mem_def, Option.some_inj] at hy
        subst hx; subst hy
        exact hvu
      · cases q with
        | nil => simp at hh
        | cons z q' =>
          rw [List.head?_cons, Option.some_inj] at hh
          subst hh
          simp
      · simp
      · simp only [List.length_append, List.length_cons, List.length_nil]
        omega

/-- Spec-side notion: `v` is reachable from `s` along `nb` edges. -/
def reachableFrom (nb : Nat → Finset Nat) (s v : Nat) : Prop :=
  ∃ k, v ∈ ball nb s k

/-- The reachable set of `s` in the co-appearance graph of `data`: the ball
whose radius exhausts the key set. -/
def reachSet (data : List CoRecord) (s : Nat) : Finset Nat :=
  ball (mapped_actors data) s (actorKeys data).card

lemma nb_closed (data : List CoRecord) :
    ∀ u v, v ∈ mapped_actors data u → v ∈ actorKeys data :=
  fun _ _ h => mapped_actors_subset_keys h

lemma mem_reachSet_iff {data : List CoRecord} {s v : Nat}
    (hs : s ∈ actorKeys data) :
    v ∈ reachSet data s ↔ reachableFrom (mapped_actors data) s v := by
  constructor
  · intro h; exact ⟨_, h⟩
  · rintro ⟨k, hk⟩
    exact mem_ball_stab (nb_closed data) hs hk

/-- Result type of the embedded Python functions: a normal return value or a
raised fault (`KeyError`, `TypeError`, `ValueError`).  `fuelExhausted` is an
embedding artefact for `while` loops, proved unreachable where needed. -/
inductive PyResult (α : Type) where
  | ok : α → PyResult α
  | keyError : PyResult α
  | typeError : PyResult α
  | valueError : PyResult α
  | fuelExhausted : PyResult α
  deriving DecidableEq

/-- One round of the `while num <= n` loop of `actors_with_bacon_number`,
iterated: the state is (current layer `b_num_dic[num]`, `seen`); a round adds
the unseen neighbours of the current layer as the next layer and marks them
seen.  (Python adds each neighbour to `seen` as it goes; since a node is
skipped exactly when it is in the original `seen` or already collected, the
resulting sets coincide.) -/
def bnIter (nb : Nat → Finset Nat) : Nat → Finset Nat × Finset Nat → Finset Nat × Finset Nat
  | 0, st => st
  | m + 1, st =>
      bnIter nb m (st.1.biUnion nb \ st.2, st.2 ∪ (st.1.biUnion nb \ st.2))

/-- Embedding of `actors_with_bacon_number(data, n)`.  The Python code first
returns `set()` when `n > len(d) - 1` (computed over the integers: for an
empty dictionary `len(d) - 1 = -1`), then evaluates `d[4724]` — a `KeyError`
when `4724` is not a key — and then runs the layer loop for `num = 1 .. n`,
returning `b_num_dic[n]`.  The returned entry is complete after the first
`n - 1` rounds; the final round only creates entry `n + 1` and extends
`seen`, neither of which affects the returned set, so the embedding iterates
`n - 1` rounds from the `(b_num_dic[1], seen)` state. -/
def actors_with_bacon_number (data : List CoRecord) (n : Nat) : PyResult (Finset Nat) :=
  if (n : Int) > ((actorKeys data).card : Int) - 1 then .ok ∅
  else if 4724 ∈ actorKeys data then
    if n = 0 then .ok {4724}
    else .ok ((bnIter (mapped_actors data) (n - 1)
      (mapped_actors data 4724, {4724} ∪ mapped_actors data 4724)).1)
  else .keyError

lemma ballNb_one_eq (nb : Nat → Finset Nat) (s : Nat) :
    ball nb s 1 = {s} ∪ nb s := by
  rw [ball_succ]
  congr 1
  exact Finset.singleton_biUnion

lemma sphere_one_eq {nb : Nat → Finset Nat} {s : Nat} (hnl : s ∉ nb s) :
    sphere nb s 1 = nb s := by
  show ball nb s 1 \ ball nb s 0 = nb s
  rw [ballNb_one_eq]
  show ({s} ∪ nb s) \ {s} = nb s
  rw [Finset.union_sdiff_distrib, Finset.sdiff_self, Finset.empty_union,
    Finset.sdiff_singleton_eq_erase]
  exact Finset.erase_eq_of_not_mem hnl

lemma bnIter_spec (nb : Nat → Finset Nat) (s : Nat) :
    ∀ m k, bnIter nb m (sphere nb s k, ball nb s k)
      = (sphere nb s (k + m), ball nb s (k + m)) := by
  intro m
  induction m with
  | zero => intro k; simp [bnIter]
  | succ m ih =>
    intro k
    show bnIter nb m
        ((sphere nb s k).biUnion nb \ ball nb s k,
          ball nb s k ∪ ((sphere nb s k).biUnion nb \ ball nb s k))
      = _
    rw [next_sphere, ← ball_succ_eq_union_sphere, ih (k + 1)]
    congr 1 <;> · congr 1; omega

/-- Characterisation of `actors_with_bacon_number`: when `4724` is a key and
not its own co-star, the function returns exactly the distance-`n` sphere. -/
lemma actors_with_bacon_number_eq_sphere (data : List CoRecord)
    (hs : 4724 ∈ actorKeys data)
    (hnl : 4724 ∉ mapped_actors data 4724) (n : Nat) :
    actors_with_bacon_number data n
      = .ok (sphere (mapped_actors data) 4724 n) := by
  unfold actors_with_bacon_number
  by_cases hbig : (n : Int) > ((actorKeys data).card : Int) - 1
  · rw [if_pos hbig]
    have hcard : (actorKeys data).card ≤ n := by omega
    rw [sphere_empty_of_big (nb_closed data) hs hcard]
  · rw [if_neg hbig, if_pos hs]
    cases n with
    | zero => rw [if_pos rfl]; rfl
    | succ m =>
      rw [if_neg (Nat.succ_ne_zero m)]
      have h1 : mapped_actors data 4724 = sphere (mapped_actors data) 4724 1 :=
        (sphere_one_eq hnl).symm
      have h2 : {4724} ∪ mapped_actors data 4724 = ball (mapped_actors data) 4724 1 :=
        (ballNb_one_eq (mapped_actors data) 4724).symm
      rw [h2, h1]
      have := bnIter_spec (mapped_actors data) 4724 (m + 1 - 1) 1
      rw [this]
      have harith : 1 + (m + 1 - 1) = m + 1 := by omega
      rw [harith]

/-- C6 (amended): when `4724` is a key of the adjacency map, the distance-0
layer is `{4724}`; when additionally the map has at least two keys, the
distance-1 layer is exactly `adjacency[4724]`.  (With a single key the bound
check `n > len(d) - 1` fires first and yields the empty set; with `4724`
absent the code raises `KeyError` — see the counterexample.) -/
theorem layer_zero_one_eq (data : List CoRecord)
    (hs : 4724 ∈ actorKeys data) :
    actors_with_bacon_number data 0 = .ok {4724} ∧
    (2 ≤ (actorKeys data).card →
      actors_with_bacon_number data 1 = .ok (mapped_actors data 4724)) := by
  have hcard : 1 ≤ (actorKeys data).card := Finset.card_pos.2 ⟨4724, hs⟩
  constructor
  · unfold actors_with_bacon_number
    have hbound : ¬ ((0 : Nat) : Int) > ((actorKeys data).card : Int) - 1 := by
      push_cast
      omega
    rw [if_neg hbound, if_pos hs, if_pos rfl]
  · intro h2
    unfold actors_with_bacon_number
    have hbound : ¬ ((1 : Nat) : Int) > ((actorKeys data).card : Int) - 1 := by
      push_cast
      omega
    rw [if_neg hbound, if_pos hs, if_neg (by omega : (1 : Nat) ≠ 0)]
    rfl

/-- C6 witness at `[(4724,1,50)]`. -/
theorem layer_zero_one_eq_witness :
    actors_with_bacon_number [(4724, 1, 50)] 0 = .ok {4724} ∧
    actors_with_bacon_number [(4724, 1, 50)] 1 = .ok (mapped_actors [(4724, 1, 50)] 4724) :=
  ⟨(layer_zero_one_eq [(4724, 1, 50)] (by decide)).1,
   (layer_zero_one_eq [(4724, 1, 50)] (by decide)).2 (by decide)⟩

/-- C6 counterexample for the claim as stated ("for every record list"): with
`[(1,2,100)]` the reference actor `4724` is no key and the distance-0 query
raises `KeyError` instead of returning `{4724}`; with the single self-loop
record `[(4724,4724,70)]` the distance-1 query returns `∅` (the bound check
fires) although `adjacency[4724] = {4724}` is non-empty. -/
theorem layer_zero_one_counterexample :
    actors_with_bacon_number [(1, 2, 100)] 0 = .keyError ∧
    actors_with_bacon_number [(4724, 4724, 70)] 1 = .ok ∅ ∧
    4724 ∈ mapped_actors [(4724, 4724, 70)] 4724 := by
  refine ⟨by decide, ?_, by decide⟩
  decide

/-- The eccentricity of the reference actor `4724`: the largest distance at
which the layering still produces a nonempty sphere. -/
def eccOf (data : List CoRecord) : Nat :=
  (Finset.range ((actorKeys data).card + 1)).sup
    (fun k => if sphere (mapped_actors data) 4724 k = ∅ then 0 else k)

lemma sphere_empty_of_reach (data : List CoRecord)
    (hs : 4724 ∈ actorKeys data) {n : Nat}
    (hn : (reachSet data 4724).card ≤ n) :
    sphere (mapped_actors data) 4724 n = ∅ := by
  by_contra hne
  have hnon : (sphere (mapped_actors data) 4724 n).Nonempty :=
    Finset.nonempty_iff_ne_empty.2 hne
  have hcard : n + 1 ≤ (ball (mapped_actors data) 4724 n).card :=
    ball_card_of_sphere_nonempty _ _ n hnon
  have hsub : ball (mapped_actors data) 4724 n ⊆ reachSet data 4724 :=
    fun v hv => mem_ball_stab (nb_closed data) hs hv
  have := Finset.card_le_card hsub
  omega

/-- C7 (amended): when `4724` is a key of the adjacency map and not its own
co-star, a requested distance exceeding the number of reachable nodes minus
one yields the empty set as an ordinary return value. -/
theorem layer_beyond_reach_empty (data : List CoRecord)
    (hs : 4724 ∈ actorKeys data)
    (hnl : 4724 ∉ mapped_actors data 4724)
    (n : Nat) (hn : (reachSet data 4724).card - 1 < n) :
    actors_with_bacon_number data n = .ok ∅ := by
  have h4724 : (4724 : Nat) ∈ reachSet data 4724 := s_mem_ball _ _ _
  have hcard1 : 1 ≤ (reachSet data 4724).card := Finset.card_pos.2 ⟨4724, h4724⟩
  have hge : (reachSet data 4724).card ≤ n := by omega
  rw [actors_with_bacon_number_eq_sphere data hs hnl n,
    sphere_empty_of_reach data hs hge]

/-- C7 witness: in `[(4724,1,50)]` the reachable set has two nodes, and the
distance-2 query returns the empty set. -/
theorem layer_beyond_reach_empty_witness :
    actors_with_bacon_number [(4724, 1, 50)] 2 = .ok ∅ :=
  layer_beyond_reach_empty [(4724, 1, 50)] (by decide) (by decide) 2 (by decide)

/-- C7 counterexample for the claim as stated: with
`[(4724,4724,70),(1,2,100)]` the requested distance `1` exceeds the number of
reachable nodes minus one (only `4724` itself is reachable), yet the query
returns `{4724}` rather than the empty set (the reference actor is its own
co-star, so the first layer `d[4724]` is not the distance-1 sphere); and with
`[(1,2,100),(3,4,101),(5,6,102)]` the same out-of-range distance raises
`KeyError` because `4724` is no key. -/
theorem layer_out_of_range_counterexample :
    ((reachSet [(4724, 4724, 70), (1, 2, 100)] 4724).card - 1 < 1 ∧
      actors_with_bacon_number [(4724, 4724, 70), (1, 2, 100)] 1
        = .ok {4724}) ∧
    ((reachSet [(1, 2, 100), (3, 4, 101), (5, 6, 102)] 4724).card - 1 < 1 ∧
      actors_with_bacon_number [(1, 2, 100), (3, 4, 101), (5, 6, 102)] 1
        = .keyError) := by
  refine ⟨⟨by decide, by decide⟩, by decide, by decide⟩

/-- C8 (amended): when `4724` is a key of the adjacency map and not its own
co-star, the produced layers are pairwise disjoint, each node belongs to a
layer `n` exactly when `n` is the smallest distance at which it is reached,
and the union of the layers for `n = 0 .. eccentricity` is exactly the set of
nodes reachable from the reference actor. -/
theorem layer_partition (data : List CoRecord)
    (hs : 4724 ∈ actorKeys data)
    (hnl : 4724 ∉ mapped_actors data 4724) :
    (∀ m n sm sn, actors_with_bacon_number data m = .ok sm →
      actors_with_bacon_number data n = .ok sn → m ≠ n → Disjoint sm sn) ∧
    (∀ n sn, actors_with_bacon_number data n = .ok sn →
      ∀ v, v ∈ sn ↔ v ∈ ball (mapped_actors data) 4724 n ∧
        ∀ k, k < n → v ∉ ball (mapped_actors data) 4724 k) ∧
    (∀ v, reachableFrom (mapped_actors data) 4724 v ↔
      ∃ n, n ≤ eccOf data ∧ ∃ sn,
        actors_with_bacon_number data n = .ok sn ∧ v ∈ sn) := by
  have hspec := actors_with_bacon_number_eq_sphere data hs hnl
  refine ⟨?_, ?_, ?_⟩
  · intro m n sm sn hm hn hmn
    rw [hspec m] at hm
    rw [hspec n] at hn
    injection hm with hm'
    injection hn with hn'
    subst hm'
    subst hn'
    rw [Finset.disjoint_left]
    intro v hvm hvn
    exact hmn (sphere_index_unique (mapped_actors data) 4724 hvm hvn)
  · intro n sn hok v
    rw [hspec n] at hok
    injection hok with hok'
    subst hok'
    constructor
    · intro hv
      refine ⟨sphere_subset_ball _ _ _ hv, ?_⟩
      intro k hk hvk
      rcases (mem_ball_iff_spheres _ _ k v).1 hvk with ⟨m', hm', hv'⟩
      have := sphere_index_unique (mapped_actors data) 4724 hv hv'
      omega
    · rintro ⟨hvb, hmin⟩
      cases n with
      | zero => exact hvb
      | succ m =>
        exact Finset.mem_sdiff.2 ⟨hvb, hmin m (Nat.lt_succ_self m)⟩
  · intro v
    constructor
    · rintro ⟨k, hk⟩
      rcases (mem_ball_iff_spheres _ _ k v).1 hk with ⟨m, _, hv⟩
      have hb : m + 1 ≤ (actorKeys data).card :=
        sphere_nonempty_bound (nb_closed data) hs ⟨v, hv⟩
      refine ⟨m, ?_, sphere (mapped_actors data) 4724 m, hspec m, hv⟩
      unfold eccOf
      have hmem : m ∈ Finset.range ((actorKeys data).card + 1) :=
        Finset.mem_range.2 (by omega)
      have hle := Finset.le_sup
        (f := fun k => if sphere (mapped_actors data) 4724 k = ∅ then 0 else k) hmem
      simpa [Finset.ne_empty_of_mem hv] using hle
    · rintro ⟨n, _, sn, hok, hv⟩
      rw [hspec n] at hok
      injection hok with hok'
      subst hok'
      exact ⟨n, sphere_subset_ball _ _ _ hv⟩

/-- C8 witness at `[(4724,1,50)]`. -/
theorem layer_partition_witness :
    Disjoint ({4724} : Finset Nat) ({1} : Finset Nat) ∧
    reachableFrom (mapped_actors [(4724, 1, 50)]) 4724 1 :=
  ⟨(layer_partition [(4724, 1, 50)] (by decide) (by decide)).1 0 1 {4724} {1}
      (by decide) (by decide) (by decide),
   ((layer_partition [(4724, 1, 50)] (by decide) (by decide)).2.2 1).2
      ⟨1, by decide, {1}, by decide, by decide⟩⟩

/-- C8 counterexample for the claim as stated: with
`[(4724,4724,70),(4724,5,71)]` (a self-loop on the reference actor) layers 0
and 1 are `{4724}` and `{4724, 5}`, which are not disjoint — `4724` is
assigned to two layers; and with `[(1,2,100)]` the reference actor is
reachable from itself but belongs to no returned layer, every query either
raising `KeyError` or returning the empty set. -/
theorem layer_partition_counterexample :
    (actors_with_bacon_number [(4724, 4724, 70), (4724, 5, 71)] 0 = .ok {4724} ∧
     actors_with_bacon_number [(4724, 4724, 70), (4724, 5, 71)] 1
        = .ok ({4724, 5} : Finset Nat) ∧
     ¬ Disjoint ({4724} : Finset Nat) ({4724, 5} : Finset Nat)) ∧
    (reachableFrom (mapped_actors [(1, 2, 100)]) 4724 4724 ∧
     ∀ n sn, actors_with_bacon_number [(1, 2, 100)] n = .ok sn → 4724 ∉ sn) := by
  refine ⟨⟨by decide, by decide, by decide⟩, ⟨0, by decide⟩, ?_⟩
  intro n sn h
  unfold actors_with_bacon_number at h
  by_cases hb : ((n : Nat) : Int) > ((actorKeys [(1, 2, 100)]).card : Int) - 1
  · rw [if_pos hb] at h
    injection h with h'
    subst h'
    exact Finset.not_mem_empty 4724
  · rw [if_neg hb, if_neg (by decide)] at h
    exact PyResult.noConfusion h

/-- The `while end != start` loop of `construct_path(relation, start, end)`:
`path` starts as `[start]`; each round appends `relation[start]` (a
`KeyError` when absent) and moves `start` there; on exit the accumulated
list is reversed.  `fuel` bounds the rounds (the Python loop can diverge on a
malformed relation; we prove the fuel is never exhausted where it matters). -/
def cpLoop (relation : Nat → Option Nat) : Nat → List Nat → Nat → Nat → PyResult (List Nat)
  | 0, _, _, _ => .fuelExhausted
  | fuel + 1, path, st, en =>
    if en = st then .ok path.reverse
    else
      match relation st with
      | none => .keyError
      | some q => cpLoop relation fuel (path ++ [q]) q en

/-- Embedding of `construct_path(relation, start, end)`. -/
def construct_path (relation : Nat → Option Nat) (fuel : Nat) (st en : Nat) :
    PyResult (List Nat) :=
  cpLoop relation fuel [st] st en

/-- The body of the inner loop `for j in map_of_actors[i]` of `actor_path`:
an unseen `j` outside the current agenda is appended to `next_agenda` (if not
already collected) and `relations[j]` is set to `i` (overwriting within the
round, as in Python); any other `j` is skipped. -/
def expandStep (seenL agendaL : List Nat) (i : Nat)
    (ac : List Nat × (Nat → Option Nat)) (j : Nat) :
    List Nat × (Nat → Option Nat) :=
  if j ∈ seenL ∨ j ∈ agendaL then ac
  else
    ((if j ∈ ac.1 then ac.1 else ac.1 ++ [j]),
      fun x => if x = j then some i else ac.2 x)

/-- The inner loop `for j in map_of_actors[i]` of `actor_path`. -/
def expandOne (seenL agendaL : List Nat) (i : Nat)
    (acc : List Nat × (Nat → Option Nat)) (js : List Nat) :
    List Nat × (Nat → Option Nat) :=
  js.foldl (expandStep seenL agendaL i) acc

/-- The outer loop `for i in agenda` of one `actor_path` round; the lookup
`map_of_actors[i]` raises `KeyError` when `i` is not a key. -/
def expandAll (data : List CoRecord) (seenL agendaL : List Nat) :
    List Nat → List Nat × (Nat → Option Nat) →
      PyResult (List Nat × (Nat → Option Nat))
  | [], acc => .ok acc
  | i :: rest, acc =>
    if i ∈ actorKeys data then
      expandAll data seenL agendaL rest
        (expandOne seenL agendaL i acc (nbrsList data i))
    else .keyError

/-- The `for next_ in agenda: if next_ not in seen: seen.add(next_)` step. -/
def seenUpdate (seenL agendaL : List Nat) : List Nat :=
  seenL ++ agendaL.filter (fun x => decide (x ∉ seenL))

/-- The `while agenda` loop of `actor_path`: expand the agenda (recording
predecessors), test the goal over the agenda, returning a reconstructed path
at the first hit, else mark the agenda seen and continue on the next layer;
an empty agenda returns `None`. -/
def bfs_loop (data : List CoRecord) (s : Nat) (goal : Nat → Bool) (cfuel : Nat) :
    Nat → List Nat → List Nat → (Nat → Option Nat) →
      PyResult (Option (List Nat))
  | 0, _, _, _ => .fuelExhausted
  | fuel + 1, agendaL, seenL, rel =>
    match agendaL with
    | [] => .ok none
    | _ :: _ =>
      match expandAll data seenL agendaL agendaL ([], rel) with
      | .ok (nextL, rel2) =>
        match agendaL.find? goal with
        | some g =>
          match construct_path rel2 cfuel g s with
          | .ok p => .ok (some p)
          | .keyError => .keyError
          | .typeError => .typeError
          | .valueError => .valueError
          | .fuelExhausted => .fuelExhausted
        | none =>
          bfs_loop data s goal cfuel fuel nextL (seenUpdate seenL agendaL) rel2
      | .keyError => .keyError
      | .typeError => .typeError
      | .valueError => .valueError
      | .fuelExhausted => .fuelExhausted

/-- Embedding of `actor_path(data, actor_id_1, goal_test_function)`: the
level-synchronous search starting from `agenda = seen = {actor_id_1}` with an
empty predecessor map.  The fuel `|keys| + 2` is proved sufficient below. -/
def actor_path (data : List CoRecord) (a1 : Nat) (goal : Nat → Bool) :
    PyResult (Option (List Nat)) :=
  bfs_loop data a1 goal ((actorKeys data).card + 2) ((actorKeys data).card + 2)
    [a1] [a1] (fun _ => none)

/-- Python's `min(possible_paths, key=len)` over a nonempty list of lists:
the first element of minimal length (strict comparison keeps the earlier
element on ties). -/
def minByLen (q : List Nat) (qs : List (List Nat)) : List Nat :=
  qs.foldl (fun best r => if r.length < best.length then r else best) q

/-- The `for actor in film_1_actors` loop of `actors_connecting_films`
collecting `actor_path` results: a raised fault aborts the loop at the first
offending element. -/
def collectPaths :
    List (PyResult (Option (List Nat))) → PyResult (List (Option (List Nat)))
  | [] => .ok []
  | .ok a :: rest =>
    match collectPaths rest with
    | .ok ps => .ok (a :: ps)
    | .keyError => .keyError
    | .typeError => .typeError
    | .valueError => .valueError
    | .fuelExhausted => .fuelExhausted
  | .keyError :: _ => .keyError
  | .typeError :: _ => .typeError
  | .valueError :: _ => .valueError
  | .fuelExhausted :: _ => .fuelExhausted

/-- Embedding of `actors_connecting_films(data, film1, film2)`: one
`actor_path` per actor of film 1's cast with the goal "is in film 2's cast",
then `min(possible_paths, key=len)`.  Python's `min` raises `ValueError` on
an empty sequence and `TypeError` when it applies `len` to a `None` entry (a
no-path result); only otherwise does it return the first shortest path. -/
def actors_connecting_films (data : List CoRecord) (film1 film2 : Nat) :
    PyResult (List Nat) :=
  match collectPaths ((castList data film1).map
      (fun actor => actor_path data actor
        (fun x => decide (x ∈ actors_in_a_movie data film2)))) with
  | .ok paths =>
    if paths = [] then .valueError
    else if paths.any (fun p => p.isNone) then .typeError
    else
      match paths.filterMap id with
      | [] => .valueError
      | q :: qs => .ok (minByLen q qs)
  | .keyError => .keyError
  | .typeError => .typeError
  | .valueError => .valueError
  | .fuelExhausted => .fuelExhausted

/-- C3: `actors_connecting_films` between two films with non-empty, disjoint,
mutually unreachable casts.  Both searches duly fail to find a path
(`actor_path` returns `None`), but the final `min(possible_paths, key=len)`
applies `len` to `None` and raises `TypeError` instead of returning an
ordinary "absent" value — the claimed propagation policy is broken here. -/
theorem actors_connecting_films_disjoint_fault :
    actors_in_a_movie [(1, 2, 100), (3, 4, 101)] 100 = {1, 2} ∧
    actors_in_a_movie [(1, 2, 100), (3, 4, 101)] 101 = {3, 4} ∧
    actor_path [(1, 2, 100), (3, 4, 101)] 1
      (fun x => decide (x ∈ actors_in_a_movie [(1, 2, 100), (3, 4, 101)] 101))
      = .ok none ∧
    actors_connecting_films [(1, 2, 100), (3, 4, 101)] 100 101 = .typeError := by
  refine ⟨by decide, by decide, by decide, by decide⟩

/-- An edge path: every consecutive pair `(p[i], p[i+1])` satisfies
`p[i+1] ∈ adjacency[p[i]]`. -/
def isEdgePath (data : List CoRecord) (l : List Nat) : Prop :=
  List.Chain' (fun a b => b ∈ mapped_actors data a) l

/-- The backward predecessor chain: following `rel` from `cur` through the
nodes of `w` ends at `s`. -/
def relChain (rel : Nat → Option Nat) (s : Nat) : Nat → List Nat → Prop
  | cur, [] => cur = s
  | cur, x :: w => rel cur = some x ∧ relChain rel s x w

lemma relChain_getLast {rel : Nat → Option Nat} {s : Nat} :
    ∀ (w : List Nat) (cur : Nat), relChain rel s cur w →
      (cur :: w).getLast? = some s := by
  intro w
  induction w with
  | nil =>
    intro cur h
    have hcs : cur = s := h
    subst hcs
    rfl
  | cons x w ih =>
    intro cur h
    rw [List.getLast?_cons_cons]
    exact ih x h.2

lemma relChain_chain' {rel : Nat → Option Nat} {nb : Nat → Finset Nat} {s : Nat}
    (hwf : ∀ j i, rel j = some i → j ∈ nb i) :
    ∀ (w : List Nat) (cur : Nat), relChain rel s cur w →
      List.Chain' (fun a b => a ∈ nb b) (cur :: w) := by
  intro w
  induction w with
  | nil => intro cur _; exact List.chain'_singleton cur
  | cons x w ih =>
    intro cur h
    rw [List.chain'_cons]
    exact ⟨hwf cur x h.1, ih x h.2⟩

/-- Correctness of the reconstruction loop: from a node on sphere `m`, with a
well-formed predecessor map covering spheres `1 .. kmax`, `cpLoop` succeeds
(given fuel at least `m + 1`) and returns the accumulated list extended by
the predecessor walk, reversed. -/
lemma cpLoop_spec {rel : Nat → Option Nat} {nb : Nat → Finset Nat} {s : Nat}
    {kmax : Nat}
    (hwf : ∀ j i, rel j = some i → ∃ m, j ∈ sphere nb s (m + 1) ∧
      i ∈ sphere nb s m ∧ j ∈ nb i)
    (hdom : ∀ m j, j ∈ sphere nb s (m + 1) → m + 1 ≤ kmax → rel j ≠ none) :
    ∀ m, m ≤ kmax → ∀ cur, cur ∈ sphere nb s m → ∀ fuel, m + 1 ≤ fuel →
      ∀ accL, ∃ w, cpLoop rel fuel accL cur s = .ok ((accL ++ w).reverse) ∧
        w.length = m ∧ relChain rel s cur w := by
  intro m
  induction m with
  | zero =>
    intro _ cur hcur fuel hfuel accL
    have hcs : cur = s := by
      have hcur' : cur ∈ ({s} : Finset Nat) := hcur
      simpa using hcur'
    subst hcs
    obtain ⟨f, rfl⟩ : ∃ f, fuel = f + 1 := ⟨fuel - 1, by omega⟩
    refine ⟨[], ?_, rfl, rfl⟩
    rw [cpLoop, if_pos rfl, List.append_nil]
  | succ m ih =>
    intro hm cur hcur fuel hfuel accL
    have hne : cur ≠ s := by
      intro hcs
      subst hcs
      have h0 : cur ∈ sphere nb cur 0 := by
        show cur ∈ ({cur} : Finset Nat)
        simp
      exact Nat.succ_ne_zero m (sphere_index_unique nb cur hcur h0)
    obtain ⟨f, rfl⟩ : ∃ f, fuel = f + 1 := ⟨fuel - 1, by omega⟩
    have hdomcur : rel cur ≠ none := hdom m cur hcur hm
    obtain ⟨i, hi⟩ : ∃ i, rel cur = some i := by
      cases hrel : rel cur with
      | none => exact absurd hrel hdomcur
      | some i => exact ⟨i, rfl⟩
    rcases hwf cur i hi with ⟨m', hcur', hi', hnb⟩
    have hmm : m' = m :=
      Nat.succ_injective (sphere_index_unique nb s hcur' hcur)
    subst hmm
    rcases ih (Nat.le_of_succ_le hm) i hi' f (by omega) (accL ++ [i]) with
      ⟨w', heq, hlen, hchain⟩
    refine ⟨i :: w', ?_, by simp [hlen], ⟨hi, hchain⟩⟩
    rw [cpLoop, if_neg (fun h => hne h.symm), hi]
    show cpLoop rel f (accL ++ [i]) i s = _
    rw [heq]
    congr 1
    rw [List.append_assoc]
    rfl

/-- Invariant of the expansion fold: with `T` the set of neighbours of the
agenda elements processed so far, the collected next agenda is `T` minus the
current ball, relation entries outside that set are untouched, and every
collected node has a fresh well-formed entry. -/
def accInv (nb : Nat → Finset Nat) (s k : Nat) (rel : Nat → Option Nat)
    (T : Finset Nat) (acc : List Nat × (Nat → Option Nat)) : Prop :=
  acc.1.toFinset = T \ ball nb s k ∧
  (∀ j, j ∉ T \ ball nb s k → acc.2 j = rel j) ∧
  (∀ j ∈ T \ ball nb s k, ∃ i, acc.2 j = some i ∧ i ∈ sphere nb s k ∧ j ∈ nb i)

lemma accInv_congr {nb : Nat → Finset Nat} {s k : Nat} {rel : Nat → Option Nat}
    {T T' : Finset Nat} {acc : List Nat × (Nat → Option Nat)}
    (h : T \ ball nb s k = T' \ ball nb s k) :
    accInv nb s k rel T acc → accInv nb s k rel T' acc := by
  unfold accInv
  rw [h]
  exact id

lemma expandOne_inv {data : List CoRecord} {s k : Nat} {rel : Nat → Option Nat}
    {seenL agendaL : List Nat}
    (hU : ∀ j : Nat, (j ∈ seenL ∨ j ∈ agendaL) ↔ j ∈ ball (mapped_actors data) s k)
    {i : Nat} (hi : i ∈ sphere (mapped_actors data) s k) :
    ∀ (js : List Nat) (T : Finset Nat) (acc : List Nat × (Nat → Option Nat)),
      (∀ j ∈ js, j ∈ mapped_actors data i) →
      accInv (mapped_actors data) s k rel T acc →
      accInv (mapped_actors data) s k rel (T ∪ js.toFinset)
        (expandOne seenL agendaL i acc js) := by
  intro js
  induction js with
  | nil =>
    intro T acc _ hacc
    apply accInv_congr (T := T) (by simp) hacc
  | cons j js ih =>
    intro T acc hsub hacc
    have hcons : expandOne seenL agendaL i acc (j :: js)
        = expandOne seenL agendaL i (expandStep seenL agendaL i acc j) js := rfl
    rw [hcons]
    by_cases hj : j ∈ seenL ∨ j ∈ agendaL
    · have hjb : j ∈ ball (mapped_actors data) s k := (hU j).1 hj
      have hstep : expandStep seenL agendaL i acc j = acc := by
        unfold expandStep
        rw [if_pos hj]
      rw [hstep]
      have hrec := ih T acc (fun x hx => hsub x (List.mem_cons_of_mem _ hx)) hacc
      apply accInv_congr (T := T ∪ js.toFinset) ?_ hrec
      ext x
      simp only [Finset.mem_sdiff, Finset.mem_union, List.toFinset_cons,
        Finset.mem_insert, List.mem_toFinset]
      constructor
      · rintro ⟨hx, hxb⟩
        refine ⟨?_, hxb⟩
        rcases hx with hx | hx
        · exact Or.inl hx
        · exact Or.inr (Or.inr hx)
      · rintro ⟨hx, hxb⟩
        refine ⟨?_, hxb⟩
        rcases hx with hx | hx | hx
        · exact Or.inl hx
        · exact absurd (hx ▸ hjb) hxb
        · exact Or.inr hx
    · have hjnb : j ∉ ball (mapped_actors data) s k := fun hb => hj ((hU j).2 hb)
      have hstep : expandStep seenL agendaL i acc j =
          ((if j ∈ acc.1 then acc.1 else acc.1 ++ [j]),
            fun x => if x = j then some i else acc.2 x) := by
        unfold expandStep
        rw [if_neg hj]
      rw [hstep]
      obtain ⟨h1, h2, h3⟩ := hacc
      have hacc' : accInv (mapped_actors data) s k rel (T ∪ {j})
          ((if j ∈ acc.1 then acc.1 else acc.1 ++ [j]),
            fun x => if x = j then some i else acc.2 x) := by
        refine ⟨?_, ?_, ?_⟩
        · show (if j ∈ acc.1 then acc.1 else acc.1 ++ [j]).toFinset = _
          by_cases hjin : j ∈ acc.1
          · rw [if_pos hjin]
            have hjT : j ∈ T \ ball (mapped_actors data) s k := by
              rw [← h1]
              exact List.mem_toFinset.2 hjin
            rw [h1]
            ext x
            simp only [Finset.mem_sdiff, Finset.mem_union, Finset.mem_singleton]
            constructor
            · rintro ⟨hx, hb⟩
              exact ⟨Or.inl hx, hb⟩
            · rintro ⟨hx | hx, hb⟩
              · exact ⟨hx, hb⟩
              · subst hx
                exact ⟨(Finset.mem_sdiff.1 hjT).1, hb⟩
          · rw [if_neg hjin]
            rw [List.toFinset_append, h1]
            ext x
            simp only [Finset.mem_union, Finset.mem_sdiff, List.toFinset_cons,
              List.toFinset_nil, insert_emptyc_eq, Finset.mem_singleton]
            constructor
            · rintro (⟨hx, hb⟩ | hx)
              · exact ⟨Or.inl hx, hb⟩
              · subst hx
                exact ⟨Or.inr rfl, hjnb⟩
            · rintro ⟨hx | hx, hb⟩
              · exact Or.inl ⟨hx, hb⟩
              · subst hx
                exact Or.inr rfl
        · intro x hx
          have hxj : x ≠ j := by
            intro he
            subst he
            exact hx (Finset.mem_sdiff.2
              ⟨Finset.mem_union_right _ (Finset.mem_singleton_self x), hjnb⟩)
          show (if x = j then some i else acc.2 x) = rel x
          rw [if_neg hxj]
          apply h2
          intro hxT
          rcases Finset.mem_sdiff.1 hxT with ⟨hxT1, hxT2⟩
          exact hx (Finset.mem_sdiff.2 ⟨Finset.mem_union_left _ hxT1, hxT2⟩)
        · intro x hx
          by_cases hxj : x = j
          · subst hxj
            refine ⟨i, by simp, hi, hsub x (List.mem_cons_self _ _)⟩
          · rcases Finset.mem_sdiff.1 hx with ⟨hxu, hxb⟩
            have hxT : x ∈ T \ ball (mapped_actors data) s k := by
              rcases Finset.mem_union.1 hxu with h | h
              · exact Finset.mem_sdiff.2 ⟨h, hxb⟩
              · exact absurd (Finset.mem_singleton.1 h) hxj
            rcases h3 x hxT with ⟨i', hrel, hi', hnb'⟩
            refine ⟨i', ?_, hi', hnb'⟩
            show (if x = j then some i else acc.2 x) = some i'
            rw [if_neg hxj]
            exact hrel
      have hrec := ih (T ∪ {j}) _ (fun x hx => hsub x (List.mem_cons_of_mem _ hx)) hacc'
      apply accInv_congr (T := (T ∪ {j}) ∪ js.toFinset) ?_ hrec
      have : (T ∪ {j}) ∪ js.toFinset = T ∪ (j :: js).toFinset := by
        ext x
        simp only [Finset.mem_union, Finset.mem_singleton, List.toFinset_cons,
          Finset.mem_insert, List.mem_toFinset]
        tauto
      rw [this]

lemma expandAll_inv {data : List CoRecord} {s k : Nat} {rel : Nat → Option Nat}
    {seenL agendaL : List Nat}
    (hU : ∀ j : Nat, (j ∈ seenL ∨ j ∈ agendaL) ↔ j ∈ ball (mapped_actors data) s k)
    (hkeys : sphere (mapped_actors data) s k ⊆ actorKeys data) :
    ∀ (rest : List Nat) (T : Finset Nat) (acc : List Nat × (Nat → Option Nat)),
      (∀ i ∈ rest, i ∈ sphere (mapped_actors data) s k) →
      accInv (mapped_actors data) s k rel T acc →
      ∃ res, expandAll data seenL agendaL rest acc = .ok res ∧
        accInv (mapped_actors data) s k rel
          (T ∪ rest.toFinset.biUnion (mapped_actors data)) res := by
  intro rest
  induction rest with
  | nil =>
    intro T acc _ hacc
    refine ⟨acc, rfl, ?_⟩
    apply accInv_congr (T := T) (by simp) hacc
  | cons i rest ih =>
    intro T acc hmem hacc
    have hik : i ∈ actorKeys data := hkeys (hmem i (List.mem_cons_self _ _))
    have hone : accInv (mapped_actors data) s k rel (T ∪ mapped_actors data i)
        (expandOne seenL agendaL i acc (nbrsList data i)) := by
      have h := expandOne_inv hU (hmem i (List.mem_cons_self i rest))
        (nbrsList data i) T acc (fun j hj => List.mem_toFinset.2 hj) hacc
      exact h
    rcases ih (T ∪ mapped_actors data i)
        (expandOne seenL agendaL i acc (nbrsList data i))
        (fun x hx => hmem x (List.mem_cons_of_mem _ hx)) hone with ⟨res, heq, hres⟩
    refine ⟨res, ?_, ?_⟩
    · rw [expandAll, if_pos hik]
      exact heq
    · have hTeq : (T ∪ mapped_actors data i)
          ∪ rest.toFinset.biUnion (mapped_actors data)
          = T ∪ (i :: rest).toFinset.biUnion (mapped_actors data) := by
        rw [List.toFinset_cons, Finset.biUnion_insert, Finset.union_assoc]
      exact accInv_congr (by rw [hTeq]) hres

/-- One expansion round of `actor_path` from the invariant state: it
succeeds, producing exactly sphere `k + 1` as the next agenda and extending
the predecessor map exactly on sphere `k + 1` with well-formed entries. -/
lemma expand_round {data : List CoRecord} {s k : Nat} (rel : Nat → Option Nat)
    {seenL agendaL : List Nat}
    (hs : s ∈ actorKeys data)
    (hA : agendaL.toFinset = sphere (mapped_actors data) s k)
    (hUnion : seenL.toFinset ∪ agendaL.toFinset = ball (mapped_actors data) s k) :
    ∃ nextL rel2,
      expandAll data seenL agendaL agendaL ([], rel) = .ok (nextL, rel2) ∧
      nextL.toFinset = sphere (mapped_actors data) s (k + 1) ∧
      (∀ j, j ∉ sphere (mapped_actors data) s (k + 1) → rel2 j = rel j) ∧
      (∀ j ∈ sphere (mapped_actors data) s (k + 1),
        ∃ i, rel2 j = some i ∧ i ∈ sphere (mapped_actors data) s k ∧
          j ∈ mapped_actors data i) := by
  have hU : ∀ j : Nat,
      (j ∈ seenL ∨ j ∈ agendaL) ↔ j ∈ ball (mapped_actors data) s k := by
    intro j
    rw [← hUnion, Finset.mem_union, List.mem_toFinset, List.mem_toFinset]
  have hkeys : sphere (mapped_actors data) s k ⊆ actorKeys data :=
    (sphere_subset_ball _ _ _).trans (ball_subset_keys (nb_closed data) hs k)
  have hinit : accInv (mapped_actors data) s k rel ∅ ([], rel) := by
    refine ⟨by simp, fun j _ => rfl, ?_⟩
    intro j hj
    simp at hj
  rcases expandAll_inv hU hkeys agendaL ∅ ([], rel)
      (fun i hi => by rw [← hA]; exact List.mem_toFinset.2 hi) hinit with
    ⟨res, heq, hres⟩
  obtain ⟨nextL, rel2⟩ := res
  have hT : (∅ ∪ agendaL.toFinset.biUnion (mapped_actors data))
      \ ball (mapped_actors data) s k = sphere (mapped_actors data) s (k + 1) := by
    rw [Finset.empty_union, hA, next_sphere]
  obtain ⟨h1, h2, h3⟩ := hres
  rw [hT] at h1 h2 h3
  exact ⟨nextL, rel2, heq, h1, h2, h3⟩

lemma seenUpdate_toFinset (seenL agendaL : List Nat) :
    (seenUpdate seenL agendaL).toFinset = seenL.toFinset ∪ agendaL.toFinset := by
  unfold seenUpdate
  ext x
  simp only [List.toFinset_append, Finset.mem_union, List.mem_toFinset,
    List.mem_filter, decide_eq_true_eq]
  constructor
  · rintro (h | ⟨h, _⟩)
    · exact Or.inl h
    · exact Or.inr h
  · rintro (h | h)
    · exact Or.inl h
    · by_cases hx : x ∈ seenL
      · exact Or.inl hx
      · exact Or.inr ⟨h, hx⟩

lemma bfs_loop_nil (data : List CoRecord) (s : Nat) (goal : Nat → Bool)
    (cfuel fuel : Nat) (seenL : List Nat) (rel : Nat → Option Nat) :
    bfs_loop data s goal cfuel (fuel + 1) [] seenL rel = .ok none := by
  rw [bfs_loop]

lemma bfs_loop_cons_keyError {data : List CoRecord} {s : Nat} {goal : Nat → Bool}
    {cfuel fuel : Nat} {a : Nat} {rest seenL : List Nat} {rel : Nat → Option Nat}
    (heq : expandAll data seenL (a :: rest) (a :: rest) ([], rel) = .keyError) :
    bfs_loop data s goal cfuel (fuel + 1) (a :: rest) seenL rel = .keyError := by
  rw [bfs_loop, heq]

lemma bfs_loop_cons_found_ok {data : List CoRecord} {s : Nat} {goal : Nat → Bool}
    {cfuel fuel : Nat} {a g : Nat} {rest seenL nextL : List Nat}
    {rel rel2 : Nat → Option Nat} {P : List Nat}
    (heq : expandAll data seenL (a :: rest) (a :: rest) ([], rel)
      = .ok (nextL, rel2))
    (hfind : (a :: rest).find? goal = some g)
    (hcp : construct_path rel2 cfuel g s = .ok P) :
    bfs_loop data s goal cfuel (fuel + 1) (a :: rest) seenL rel
      = .ok (some P) := by
  rw [bfs_loop, heq, hfind]
  simp only [hcp]

lemma bfs_loop_cons_next {data : List CoRecord} {s : Nat} {goal : Nat → Bool}
    {cfuel fuel : Nat} {a : Nat} {rest seenL nextL : List Nat}
    {rel rel2 : Nat → Option Nat}
    (heq : expandAll data seenL (a :: rest) (a :: rest) ([], rel)
      = .ok (nextL, rel2))
    (hfind : (a :: rest).find? goal = none) :
    bfs_loop data s goal cfuel (fuel + 1) (a :: rest) seenL rel
      = bfs_loop data s goal cfuel fuel nextL (seenUpdate seenL (a :: rest)) rel2 := by
  rw [bfs_loop, heq, hfind]

/-- Master invariant lemma for the `actor_path` loop: from a state whose
agenda is sphere `k`, whose seen-plus-agenda set is ball `k`, and whose
predecessor map is well-formed and covers spheres `1 .. k`, any returned path
starts at `s`, ends at a goal node `g` on the sphere of index
`length - 1`, follows adjacency edges, and no shorter edge path from `s`
to `g` exists. -/
lemma bfs_loop_path_spec (data : List CoRecord) (s : Nat) (goal : Nat → Bool)
    (cfuel : Nat) (hs : s ∈ actorKeys data)
    (hcfuel : (actorKeys data).card + 1 ≤ cfuel) :
    ∀ (fuel k : Nat) (agendaL seenL : List Nat) (rel : Nat → Option Nat),
      agendaL.toFinset = sphere (mapped_actors data) s k →
      seenL.toFinset ∪ agendaL.toFinset = ball (mapped_actors data) s k →
      (∀ j i, rel j = some i → ∃ m, j ∈ sphere (mapped_actors data) s (m + 1) ∧
        i ∈ sphere (mapped_actors data) s m ∧ j ∈ mapped_actors data i) →
      (∀ m j, j ∈ sphere (mapped_actors data) s (m + 1) → m + 1 ≤ k →
        rel j ≠ none) →
      ∀ p, bfs_loop data s goal cfuel fuel agendaL seenL rel = .ok (some p) →
        p.head? = some s ∧
        ∃ g, p.getLast? = some g ∧ goal g = true ∧ isEdgePath data p ∧
          g ∈ sphere (mapped_actors data) s (p.length - 1) ∧
          ∀ q, q.head? = some s → q.getLast? = some g → isEdgePath data q →
            p.length ≤ q.length := by
  intro fuel
  induction fuel with
  | zero =>
    intro k agendaL seenL rel _ _ _ _ p h
    simp [bfs_loop] at h
  | succ fuel ih =>
    intro k agendaL seenL rel hA hU hwf hdom p h
    cases agendaL with
    | nil =>
      rw [bfs_loop_nil] at h
      simp at h
    | cons a rest =>
      rcases expand_round rel hs hA hU with
        ⟨nextL, rel2, heq, hnext, hpres, hnew⟩
      have hwf2 : ∀ j i, rel2 j = some i →
          ∃ m, j ∈ sphere (mapped_actors data) s (m + 1) ∧
            i ∈ sphere (mapped_actors data) s m ∧ j ∈ mapped_actors data i := by
        intro j i hj
        by_cases hjs : j ∈ sphere (mapped_actors data) s (k + 1)
        · rcases hnew j hjs with ⟨i', hrel', hi', hnb'⟩
          have hii : i = i' := Option.some_inj.1 (hj.symm.trans hrel')
          subst hii
          exact ⟨k, hjs, hi', hnb'⟩
        · rw [hpres j hjs] at hj
          exact hwf j i hj
      have hdom2 : ∀ m j, j ∈ sphere (mapped_actors data) s (m + 1) →
          m + 1 ≤ k + 1 → rel2 j ≠ none := by
        intro m j hj hm
        rcases Nat.lt_or_ge (m + 1) (k + 1) with hlt | hge
        · have hne : j ∉ sphere (mapped_actors data) s (k + 1) := by
            intro hjk
            have := sphere_index_unique (mapped_actors data) s hj hjk
            omega
          rw [hpres j hne]
          exact hdom m j hj (by omega)
        · have hmk : m + 1 = k + 1 := by omega
          rw [hmk] at hj
          rcases hnew j hj with ⟨i', hrel', _, _⟩
          rw [hrel']
          simp
      cases hfind : (a :: rest).find? goal with
      | some g =>
        have hg_mem : g ∈ sphere (mapped_actors data) s k := by
          rw [← hA]
          exact List.mem_toFinset.2 (List.mem_of_find?_eq_some hfind)
        have hgoal : goal g = true := List.find?_some hfind
        have hkbound : k + 1 ≤ (actorKeys data).card :=
          sphere_nonempty_bound (nb_closed data) hs ⟨g, hg_mem⟩
        rcases cpLoop_spec hwf2
            (fun m j hj hm => hdom2 m j hj (by omega))
            k le_rfl g hg_mem cfuel (by omega) [g] with ⟨w, hcp, hlen, hchain⟩
        have hcp' : construct_path rel2 cfuel g s = .ok (([g] ++ w).reverse) := hcp
        have hloop : bfs_loop data s goal cfuel (fuel + 1) (a :: rest) seenL rel
            = .ok (some (([g] ++ w).reverse)) :=
          bfs_loop_cons_found_ok heq hfind hcp'
        have hp : ([g] ++ w).reverse = p := by
          have hcomb := hloop.symm.trans h
          injection hcomb with h1
          exact Option.some_inj.1 h1
        subst hp
        have hgw : ([g] ++ w) = g :: w := rfl
        have hplen : (([g] ++ w).reverse).length - 1 = k := by
          simp [hlen]
        constructor
        · rw [List.head?_reverse, hgw]
          exact relChain_getLast w g hchain
        · refine ⟨g, ?_, hgoal, ?_, ?_, ?_⟩
          · rw [List.getLast?_reverse, hgw]
            rfl
          · show List.Chain' (fun a b => b ∈ mapped_actors data a) (([g] ++ w).reverse)
            rw [List.chain'_reverse, hgw]
            exact relChain_chain'
              (fun j i hji => by rcases hwf2 j i hji with ⟨m, _, _, hnb⟩; exact hnb)
              w g hchain
          · rw [hplen]
            exact hg_mem
          · intro q hqh hql hqp
            have hqlen : 1 ≤ q.length := by
              cases q with
              | nil => simp at hqh
              | cons x t => simp
            have hqball : g ∈ ball (mapped_actors data) s (q.length - 1) :=
              path_last_mem_ball (mapped_actors data) q s g hqp hqh hql
            have hptot : (([g] ++ w).reverse).length = k + 1 := by
              simp [hlen]
            rw [hptot]
            cases k with
            | zero => omega
            | succ k' =>
              by_contra hlt
              push_neg at hlt
              have hqk : q.length - 1 ≤ k' := by omega
              have : g ∈ ball (mapped_actors data) s k' :=
                ball_mono (mapped_actors data) s hqk hqball
              exact (Finset.mem_sdiff.1 hg_mem).2 this
      | none =>
        rw [bfs_loop_cons_next heq hfind] at h
        refine ih (k + 1) nextL (seenUpdate seenL (a :: rest)) rel2 hnext ?_
          hwf2 hdom2 p h
        rw [seenUpdate_toFinset, hU, hnext, ← ball_succ_eq_union_sphere]

/-- C1: any path returned by `actor_path` starts at the start actor, ends at
a node `g` satisfying the goal predicate, follows adjacency edges
(`path[i+1] ∈ adjacency[path[i]]`), its last node lies on the sphere of index
`len(path) - 1` (so `len(path) - 1` is the BFS distance from the start to the
found node), and no edge path from the start to `g` is shorter. -/
theorem actor_path_shortest (data : List CoRecord) (s : Nat) (goal : Nat → Bool)
    (p : List Nat) (hs : s ∈ actorKeys data)
    (h : actor_path data s goal = .ok (some p)) :
    p.head? = some s ∧
    ∃ g, p.getLast? = some g ∧ goal g = true ∧ isEdgePath data p ∧
      g ∈ sphere (mapped_actors data) s (p.length - 1) ∧
      ∀ q, q.head? = some s → q.getLast? = some g → isEdgePath data q →
        p.length ≤ q.length := by
  refine bfs_loop_path_spec data s goal ((actorKeys data).card + 2) hs (by omega)
    ((actorKeys data).card + 2) 0 [s] [s] (fun _ => none) ?_ ?_ ?_ ?_ p h
  · show ([s] : List Nat).toFinset = sphere (mapped_actors data) s 0
    simp [sphere]
  · show ([s] : List Nat).toFinset ∪ ([s] : List Nat).toFinset
      = ball (mapped_actors data) s 0
    simp [ball]
  · intro j i hji
    exact absurd hji (by simp)
  · intro m j _ hm
    exact absurd hm (by omega)

/-- C1 witness: on `[(1,2,100),(2,3,101)]` the search from `1` for `3`
returns `[1,2,3]`, which satisfies every clause of the claim. -/
theorem actor_path_shortest_witness :
    ([1, 2, 3] : List Nat).head? = some 1 ∧
    ∃ g, ([1, 2, 3] : List Nat).getLast? = some g ∧
      (fun x => decide (x = 3)) g = true ∧
      isEdgePath [(1, 2, 100), (2, 3, 101)] [1, 2, 3] ∧
      g ∈ sphere (mapped_actors [(1, 2, 100), (2, 3, 101)]) 1
        (([1, 2, 3] : List Nat).length - 1) ∧
      ∀ q, q.head? = some 1 → q.getLast? = some g →
        isEdgePath [(1, 2, 100), (2, 3, 101)] q →
          ([1, 2, 3] : List Nat).length ≤ q.length :=
  actor_path_shortest [(1, 2, 100), (2, 3, 101)] 1 (fun x => decide (x = 3))
    [1, 2, 3] (by decide) (by decide)

/-- Termination lemma for the `actor_path` loop: when no reachable node
satisfies the goal, the loop drains the spheres and returns `None` within the
provided fuel. -/
lemma bfs_loop_none_spec (data : List CoRecord) (s : Nat) (goal : Nat → Bool)
    (cfuel : Nat) (hs : s ∈ actorKeys data)
    (hng : ∀ v, reachableFrom (mapped_actors data) s v → goal v = false) :
    ∀ (fuel k : Nat) (agendaL seenL : List Nat) (rel : Nat → Option Nat),
      agendaL.toFinset = sphere (mapped_actors data) s k →
      seenL.toFinset ∪ agendaL.toFinset = ball (mapped_actors data) s k →
      (k = 0 ∨ (sphere (mapped_actors data) s (k - 1)).Nonempty) →
      (actorKeys data).card + 2 ≤ fuel + k →
      bfs_loop data s goal cfuel fuel agendaL seenL rel = .ok none := by
  intro fuel
  induction fuel with
  | zero =>
    intro k agendaL seenL rel hA hU hprev hfuel
    exfalso
    rcases hprev with h0 | hne
    · omega
    · have := sphere_nonempty_bound (nb_closed data) hs hne
      omega
  | succ fuel ih =>
    intro k agendaL seenL rel hA hU hprev hfuel
    cases agendaL with
    | nil => exact bfs_loop_nil data s goal cfuel fuel seenL rel
    | cons a rest =>
      rcases expand_round rel hs hA hU with ⟨nextL, rel2, heq, hnext, hpres, hnew⟩
      have hfind : (a :: rest).find? goal = none := by
        rw [List.find?_eq_none]
        intro x hx
        have hxs : x ∈ sphere (mapped_actors data) s k := by
          rw [← hA]
          exact List.mem_toFinset.2 hx
        have hx0 : goal x = false := hng x ⟨k, sphere_subset_ball _ _ _ hxs⟩
        simp [hx0]
      rw [bfs_loop_cons_next heq hfind]
      refine ih (k + 1) nextL (seenUpdate seenL (a :: rest)) rel2 hnext ?_ ?_ ?_
      · rw [seenUpdate_toFinset, hU, hnext, ← ball_succ_eq_union_sphere]
      · right
        have hk1 : (k + 1) - 1 = k := by omega
        rw [hk1, ← hA]
        exact ⟨a, List.mem_toFinset.2 (List.mem_cons_self _ _)⟩
      · omega

/-- C4: when the start actor is a key of the adjacency map and no node
reachable from it satisfies the goal predicate, `actor_path` terminates with
the ordinary "no path" result `None` once the frontier empties, raising no
fault. -/
theorem actor_path_no_goal_none (data : List CoRecord) (s : Nat)
    (goal : Nat → Bool) (hs : s ∈ actorKeys data)
    (hng : ∀ v, reachableFrom (mapped_actors data) s v → goal v = false) :
    actor_path data s goal = .ok none := by
  refine bfs_loop_none_spec data s goal ((actorKeys data).card + 2) hs hng
    ((actorKeys data).card + 2) 0 [s] [s] (fun _ => none) ?_ ?_ (Or.inl rfl)
    (by omega)
  · simp [sphere]
  · simp [ball]

/-- C4 witness: on `[(1,2,100)]` from start `1` with the unreachable goal
`x = 5`, the search returns `None`. -/
theorem actor_path_no_goal_none_witness :
    actor_path [(1, 2, 100)] 1 (fun x => decide (x = 5)) = .ok none :=
  actor_path_no_goal_none [(1, 2, 100)] 1 (fun x => decide (x = 5)) (by decide)
    (by
      intro v hv
      have hv' : v ∈ reachSet [(1, 2, 100)] 1 := (mem_reachSet_iff (by decide)).2 hv
      rw [(by decide : reachSet [(1, 2, 100)] 1 = ({1, 2} : Finset Nat))] at hv'
      have hv12 : v = 1 ∨ v = 2 := by simpa using hv'
      rcases hv12 with h | h <;> subst h <;> decide)

lemma expandAll_head_keyError {data : List CoRecord}
    {seenL agendaL rest : List Nat} {i : Nat}
    {acc : List Nat × (Nat → Option Nat)}
    (h : i ∉ actorKeys data) :
    expandAll data seenL agendaL (i :: rest) acc = .keyError := by
  rw [expandAll, if_neg h]

/-- C5 (amended): for a reference actor `R = 4724` appearing in no record
(so no key of the adjacency map), `actor_path(data, R, goal)` raises
`KeyError` — the `map_of_actors[R]` lookup happens before any goal test —
and the distance-1 layer query raises `KeyError` too whenever the adjacency
map has at least two keys; only with at most one key does the bound check
return the empty set first. -/
theorem isolated_actor_keyError (data : List CoRecord) (goal : Nat → Bool)
    (h : 4724 ∉ actorKeys data) :
    actor_path data 4724 goal = .keyError ∧
    (2 ≤ (actorKeys data).card → actors_with_bacon_number data 1 = .keyError) ∧
    ((actorKeys data).card ≤ 1 → actors_with_bacon_number data 1 = .ok ∅) := by
  refine ⟨?_, ?_, ?_⟩
  · show bfs_loop data 4724 goal ((actorKeys data).card + 2)
      ((actorKeys data).card + 2) [4724] [4724] (fun _ => none) = .keyError
    have hsucc : (actorKeys data).card + 2 = ((actorKeys data).card + 1) + 1 := rfl
    rw [hsucc]
    exact bfs_loop_cons_keyError (expandAll_head_keyError h)
  · intro h2
    unfold actors_with_bacon_number
    have hbound : ¬ ((1 : Nat) : Int) > ((actorKeys data).card : Int) - 1 := by
      push_cast
      omega
    rw [if_neg hbound, if_neg h]
  · intro h1
    unfold actors_with_bacon_number
    have hbound : ((1 : Nat) : Int) > ((actorKeys data).card : Int) - 1 := by
      push_cast
      omega
    rw [if_pos hbound]

/-- C5 witness at `[(1,2,100)]` (two keys, `4724` absent). -/
theorem isolated_actor_keyError_witness :
    actor_path [(1, 2, 100)] 4724 (fun x => decide (x ≠ 4724)) = .keyError ∧
    actors_with_bacon_number [(1, 2, 100)] 1 = .keyError :=
  ⟨(isolated_actor_keyError [(1, 2, 100)] (fun x => decide (x ≠ 4724))
      (by decide)).1,
   (isolated_actor_keyError [(1, 2, 100)] (fun x => decide (x ≠ 4724))
      (by decide)).2.1 (by decide)⟩

/-- C5 counterexample: with `[(5,6,100)]` the reference actor `4724` has no
co-stars; the claim expects `layer(adjacency, 4724, 1) = ∅` and a NotFound
result from `actor_path`, but both queries raise `KeyError`. -/
theorem isolated_actor_counterexample :
    actors_with_bacon_number [(5, 6, 100)] 1 = .keyError ∧
    actor_path [(5, 6, 100)] 4724 (fun x => decide (x ≠ 4724)) = .keyError := by
  refine ⟨by decide, by decide⟩
